import Mathlib

/-!
Shallow embedding of the probability-estimation and value-betting core of the
keiba-20250420 repository (src/bankroll_manager.py, src/probability_models.py,
src/betting_analyzer.py, src/bet_type_analyzer.py), with theorems settling the
frozen claims about it.

Conventions of the embedding:
* Python `float` values are modelled as `ℚ` (exact arithmetic); integer yen
  amounts as `ℤ`.
* Python dicts are modelled as insertion-ordered association lists
  `List (String × α)`; dict assignment is `upsert` (overwrite in place,
  append when new), matching CPython dict semantics.
* A Python string that is fed to `float(...)` is modelled by the result of the
  parse attempt, `Option ℚ` (`none` = `ValueError`/`TypeError`, which the
  source catches and skips).
* Code paths that raise an uncaught exception (`ZeroDivisionError` on odds
  equal to zero) are modelled with `Option` results (`none` = raises).
* The pseudorandom draw of `random.expovariate` in the Monte-Carlo simulator
  is modelled as an explicit oracle argument (iteration number and horse
  number to drawn value).
-/

namespace Keiba

/-- Python dict assignment `d[k] = v` on an insertion-ordered association
list: overwrite in place if the key exists, otherwise append. -/
def upsert (l : List (String × α)) (k : String) (v : α) : List (String × α) :=
  if l.any (fun p => p.1 = k) then
    l.map (fun p => if p.1 = k then (k, v) else p)
  else
    l ++ [(k, v)]

/-! ## BankrollManager (src/bankroll_manager.py) -/

/-- One element of `BankrollManager.bet_history` (the fields a claim reads);
`result` keeps the raw string, `profit` is `payout - amount` on `"win"`,
`-amount` otherwise (src/bankroll_manager.py:124-134). -/
structure BetRecord where
  race_id : String
  bet_type : String
  horses : List String
  amount : ℤ
  odds : ℚ
  result : String
  payout : ℤ
  profit : ℤ
  bankroll_before : ℚ
  bankroll_after : ℚ
  deriving Repr, DecidableEq

/-- The mutable state of a `BankrollManager`. -/
structure BankrollManager where
  initial_bankroll : ℚ
  current_bankroll : ℚ
  max_risk_per_race : ℚ
  bet_history : List BetRecord
  deriving Repr, DecidableEq

/-- `BankrollManager.__init__` (src/bankroll_manager.py:20-41). -/
def BankrollManager.init (initial_bankroll : ℚ := 100000)
    (max_risk_per_race : ℚ := 5/100) : BankrollManager :=
  { initial_bankroll := initial_bankroll
    current_bankroll := initial_bankroll
    max_risk_per_race := max_risk_per_race
    bet_history := [] }

/-- `BankrollManager.calculate_bet_size` (src/bankroll_manager.py:43-81):
quarter-Kelly with confidence scaling, clamped to `max_risk_per_race`,
bet rounded up to the next 100 yen and floored at 100.  Returns the yen
amount as `ℤ`. -/
def BankrollManager.calculate_bet_size (self : BankrollManager)
    (expected_value odds probability : ℚ) (confidence : ℚ := 8/10) : ℤ :=
  if expected_value ≤ 1 ∨ odds ≤ 1 ∨ probability ≤ 0 then
    100
  else
    let net_odds := odds - 1
    let kelly_fraction := (net_odds * probability - (1 - probability)) / net_odds
    let kelly_fraction := kelly_fraction * confidence
    let conservative_kelly := kelly_fraction / 4
    let conservative_kelly := min conservative_kelly self.max_risk_per_race
    let bet_amount := self.current_bankroll * conservative_kelly
    max 100 (⌈bet_amount / 100⌉ * 100)

/-- The arguments of one `BankrollManager.record_bet` call. -/
structure BetCall where
  race_id : String
  bet_type : String
  horses : List String
  amount : ℤ
  odds : ℚ
  result : String
  payout : ℤ
  deriving Repr, DecidableEq

/-- `BankrollManager.record_bet` (src/bankroll_manager.py:110-147): appends a
bet record with `profit = payout - amount` on `"win"` and `-amount`
otherwise, and moves the bankroll by the same delta.
(`_update_performance_metrics` touches no field modelled here.) -/
def BankrollManager.record_bet (self : BankrollManager) (c : BetCall) :
    BankrollManager :=
  let profit : ℤ := if c.result = "win" then c.payout - c.amount else -c.amount
  let new_bankroll : ℚ :=
    if c.result = "win" then self.current_bankroll + (c.payout - c.amount)
    else self.current_bankroll - c.amount
  let rec_ : BetRecord :=
    { race_id := c.race_id, bet_type := c.bet_type, horses := c.horses
      amount := c.amount, odds := c.odds, result := c.result
      payout := c.payout, profit := profit
      bankroll_before := self.current_bankroll
      bankroll_after := new_bankroll }
  { self with
      current_bankroll := new_bankroll
      bet_history := self.bet_history ++ [rec_] }

/-- A whole sequence of `record_bet` calls, in order. -/
def BankrollManager.record_all (self : BankrollManager) (cs : List BetCall) :
    BankrollManager :=
  cs.foldl BankrollManager.record_bet self

/-- Sum of the `profit` fields of a betting history. -/
def profit_sum (h : List BetRecord) : ℤ :=
  (h.map BetRecord.profit).sum

/-! ### C1: bankroll conservation -/

/-- A single `record_bet` call moves the bankroll by exactly the recorded
profit and appends exactly one record carrying that profit. -/
theorem record_bet_step (self : BankrollManager) (c : BetCall) :
    (self.record_bet c).current_bankroll =
      self.current_bankroll +
        ((self.record_bet c).bet_history.map BetRecord.profit).sum -
        (self.bet_history.map BetRecord.profit).sum ∧
    (self.record_bet c).bet_history.length = self.bet_history.length + 1 := by
  constructor
  · simp only [BankrollManager.record_bet, List.map_append, List.sum_append,
      List.map_cons, List.map_nil, List.sum_cons, List.sum_nil]
    by_cases h : c.result = "win" <;> simp [h] <;> ring
  · simp [BankrollManager.record_bet]

/-- C1: For every sequence of `record_bet` calls on a `BankrollManager`
(any race ids, bet types, stakes, odds, results and payouts), after the
sequence the current bankroll equals the initial bankroll plus the sum of the
`profit` fields of all recorded bets, exactly. -/
theorem bankroll_conservation (initial max_risk : ℚ) (cs : List BetCall) :
    ((BankrollManager.init initial max_risk).record_all cs).current_bankroll =
      initial +
        profit_sum ((BankrollManager.init initial max_risk).record_all cs).bet_history := by
  suffices h : ∀ (cs : List BetCall) (st : BankrollManager),
      st.current_bankroll = st.initial_bankroll + profit_sum st.bet_history →
      (st.record_all cs).current_bankroll =
        (st.record_all cs).initial_bankroll +
          profit_sum (st.record_all cs).bet_history by
    have hinit : ∀ (cs : List BetCall) (st : BankrollManager),
        (st.record_all cs).initial_bankroll = st.initial_bankroll := by
      intro cs
      induction cs with
      | nil => intro st; simp [BankrollManager.record_all]
      | cons c cs ih =>
        intro st
        have : st.record_all (c :: cs) = (st.record_bet c).record_all cs := by
          simp [BankrollManager.record_all]
        rw [this, ih]
        simp [BankrollManager.record_bet]
    have heq := h cs (BankrollManager.init initial max_risk)
      (by simp [BankrollManager.init, profit_sum])
    rw [hinit cs (BankrollManager.init initial max_risk)] at heq
    simpa [BankrollManager.init] using heq
  intro cs
  induction cs with
  | nil => intro st h; simpa [BankrollManager.record_all] using h
  | cons c cs ih =>
    intro st h
    have hstep : (st.record_bet c).current_bankroll =
        (st.record_bet c).initial_bankroll +
          profit_sum (st.record_bet c).bet_history := by
      simp only [BankrollManager.record_bet, profit_sum, List.map_append,
        List.sum_append, List.map_cons, List.map_nil, List.sum_cons,
        List.sum_nil] at h ⊢
      by_cases hw : c.result = "win" <;> simp [hw, h] <;> ring
    have : st.record_all (c :: cs) = (st.record_bet c).record_all cs := by
      simp [BankrollManager.record_all]
    rw [this]
    exact ih (st.record_bet c) hstep

/-! ### C5: fail-safe minimum stake on invalid inputs -/

/-- C5: For every call to `calculate_bet_size` with expected value at most 1,
or odds at most 1, or probability at most 0, the function returns exactly the
minimum stake of 100 (and, being a total function on these inputs, raises no
error). -/
theorem calculate_bet_size_failsafe (self : BankrollManager)
    (expected_value odds probability confidence : ℚ)
    (h : expected_value ≤ 1 ∨ odds ≤ 1 ∨ probability ≤ 0) :
    self.calculate_bet_size expected_value odds probability confidence = 100 := by
  unfold BankrollManager.calculate_bet_size
  rw [if_pos h]

/-- Witness for C5 at a concrete invalid input (EV = 0.5). -/
theorem calculate_bet_size_failsafe_witness :
    ((1:ℚ)/2 ≤ 1 ∨ (3:ℚ) ≤ 1 ∨ (1:ℚ)/4 ≤ 0) ∧
      (BankrollManager.init 100000 (5/100)).calculate_bet_size
        (1/2) 3 (1/4) (8/10) = 100 :=
  ⟨Or.inl (by norm_num),
    calculate_bet_size_failsafe _ _ _ _ _ (Or.inl (by norm_num))⟩

/-! ### C6: Kelly monotonicity -/

/-- On valid inputs `calculate_bet_size` unfolds to the Kelly pipeline. -/
theorem calculate_bet_size_of_valid (self : BankrollManager)
    (expected_value odds probability confidence : ℚ)
    (hEV : 1 < expected_value) (ho : 1 < odds) (hp : 0 < probability) :
    self.calculate_bet_size expected_value odds probability confidence =
      max 100 (⌈(self.current_bankroll *
        min (((odds - 1) * probability - (1 - probability)) / (odds - 1) *
          confidence / 4) self.max_risk_per_race) / 100⌉ * 100) := by
  unfold BankrollManager.calculate_bet_size
  rw [if_neg]
  push_neg
  exact ⟨hEV, ho, hp⟩

/-- The tail of the sizing pipeline (confidence scaling, quarter, risk clamp,
bankroll multiple, round up to 100, floor at 100) is monotone in the raw Kelly
fraction when the bankroll and the confidence are nonnegative. -/
theorem stake_pipeline_mono (B R c : ℚ) (hB : 0 ≤ B) (hc : 0 ≤ c)
    {f f' : ℚ} (hf : f ≤ f') :
    max 100 (⌈(B * min (f * c / 4) R) / 100⌉ * 100) ≤
      max 100 (⌈(B * min (f' * c / 4) R) / 100⌉ * 100) := by
  refine max_le_max le_rfl ?_
  have h1 : f * c / 4 ≤ f' * c / 4 := by
    have := mul_le_mul_of_nonneg_right hf hc
    linarith
  have h2 : B * min (f * c / 4) R ≤ B * min (f' * c / 4) R :=
    mul_le_mul_of_nonneg_left (min_le_min h1 le_rfl) hB
  have h3 : (B * min (f * c / 4) R) / 100 ≤ (B * min (f' * c / 4) R) / 100 := by
    linarith
  exact mul_le_mul_of_nonneg_right (Int.ceil_le_ceil h3) (by norm_num)

/-- C6 counterexample: the claim admits any probability `> 0`, but for an
estimated probability of 2 the Kelly fraction `(net*p - (1-p))/net` is
strictly decreasing in the odds, so with bankroll 100000, max risk 5%,
expected value 2, probability 2 and confidence 1/20, odds 11 yield a stake of
2700 while odds 2 yield 3800: larger odds give a strictly smaller stake even
though both inputs are valid in the claim's sense (EV > 1, odds > 1, p > 0). -/
theorem kelly_monotonicity_counterexample :
    (1 < (2:ℚ) ∧ 1 < (2:ℚ) ∧ 1 < (11:ℚ) ∧ 0 < (2:ℚ) ∧ (2:ℚ) ≤ 11) ∧
    (BankrollManager.init 100000 (5/100)).calculate_bet_size 2 2 2 (1/20) = 3800 ∧
    (BankrollManager.init 100000 (5/100)).calculate_bet_size 2 11 2 (1/20) = 2700 ∧
    (2700 : ℤ) < 3800 := by
  refine ⟨by norm_num, ?_, ?_, by norm_num⟩
  · rw [calculate_bet_size_of_valid _ _ _ _ _ (by norm_num) (by norm_num)
      (by norm_num)]
    simp only [BankrollManager.init]
    have h38 : (⌈((75:ℚ)/2)⌉ : ℤ) = 38 := by
      rw [Int.ceil_eq_iff]; norm_num
    norm_num [min_def, max_def, h38]
  · rw [calculate_bet_size_of_valid _ _ _ _ _ (by norm_num) (by norm_num)
      (by norm_num)]
    simp only [BankrollManager.init]
    have h27 : (⌈((105:ℚ)/4)⌉ : ℤ) = 27 := by
      rw [Int.ceil_eq_iff]; norm_num
    norm_num [min_def, max_def, h27]

/-- C6 (amended): for valid inputs with, in addition, probability at most 1,
a nonnegative shared bankroll and a nonnegative shared confidence,
`calculate_bet_size` is non-decreasing in the estimated probability (fixed
bankroll, EV, odds, confidence) and non-decreasing in the odds (fixed
bankroll, EV, probability, confidence), the max-risk clamp included. -/
theorem kelly_monotonicity (self : BankrollManager)
    (hB : 0 ≤ self.current_bankroll)
    (expected_value odds odds' probability probability' confidence : ℚ)
    (hc : 0 ≤ confidence) (hEV : 1 < expected_value)
    (ho : 1 < odds) (ho' : 1 < odds')
    (hp : 0 < probability) (hp1 : probability ≤ 1)
    (hq : 0 < probability') (hq1 : probability' ≤ 1) :
    (probability ≤ probability' →
      self.calculate_bet_size expected_value odds probability confidence ≤
        self.calculate_bet_size expected_value odds probability' confidence) ∧
    (odds ≤ odds' →
      self.calculate_bet_size expected_value odds probability confidence ≤
        self.calculate_bet_size expected_value odds' probability confidence) := by
  have hod : (0:ℚ) < odds - 1 := by linarith
  have hod' : (0:ℚ) < odds' - 1 := by linarith
  constructor
  · intro hpp
    rw [calculate_bet_size_of_valid self _ _ _ _ hEV ho hp,
      calculate_bet_size_of_valid self _ _ _ _ hEV ho hq]
    refine stake_pipeline_mono _ _ _ hB hc ?_
    rw [div_le_div_iff₀ hod hod]
    nlinarith [mul_nonneg (mul_nonneg (sub_nonneg.mpr hpp) hod.le)
      (by linarith : (0:ℚ) ≤ odds)]
  · intro hoo
    rw [calculate_bet_size_of_valid self _ _ _ _ hEV ho hp,
      calculate_bet_size_of_valid self _ _ _ _ hEV ho' hp]
    refine stake_pipeline_mono _ _ _ hB hc ?_
    rw [div_le_div_iff₀ hod hod']
    nlinarith [mul_nonneg (by linarith : (0:ℚ) ≤ 1 - probability)
      (by linarith : (0:ℚ) ≤ odds' - odds)]

/-- Witness for the amended C6 at concrete inputs (probability 0.2 vs 0.4 at
odds 3, and odds 3 vs 5 at probability 0.2, bankroll 100000). -/
theorem kelly_monotonicity_witness :
    (BankrollManager.init 100000 (5/100)).calculate_bet_size 2 3 (2/10) (8/10) ≤
      (BankrollManager.init 100000 (5/100)).calculate_bet_size 2 3 (4/10) (8/10) ∧
    (BankrollManager.init 100000 (5/100)).calculate_bet_size 2 3 (2/10) (8/10) ≤
      (BankrollManager.init 100000 (5/100)).calculate_bet_size 2 5 (2/10) (8/10) := by
  have h := kelly_monotonicity (BankrollManager.init 100000 (5/100))
    (by norm_num [BankrollManager.init]) 2 3 5 (2/10) (4/10) (8/10)
    (by norm_num) (by norm_num) (by norm_num) (by norm_num)
    (by norm_num) (by norm_num) (by norm_num) (by norm_num)
  exact ⟨h.1 (by norm_num), h.2 (by norm_num)⟩

/-! ## ProbabilityModels (src/probability_models.py) -/

/-- Python truthiness of an optional string: `None` and `""` are falsy. -/
def truthy : Option String → Bool
  | some s => s != ""
  | none => false

/-- One element of `race_data["horses"]`, restricted to the keys the modelled
code reads.  `weight_diff_mag` models
`float(weight_diff.replace("+", "").replace("-", ""))`: it is `some m` when
the `weight_diff` string is truthy and the sign-stripped parse succeeds with
value `m`, and `none` when the key is missing, falsy or unparseable — all of
which make src/probability_models.py:648-661 skip the horse. -/
structure Horse where
  umaban : Option String := none
  weight : Option String := none
  weight_diff_mag : Option ℚ := none
  deriving Repr, DecidableEq

/-- A mapping of live odds by bet type: bet-type key (e.g. `"tan_odds"`) to
per-umaban odds strings, each string modelled by its parse attempt. -/
abbrev OddsTable := List (String × List (String × Option ℚ))

/-- The slice of `race_data` the modelled probability code reads.
`race_analysis_pace_scenario` models
`race_data.get("race_analysis", {}).get("pace_scenario")`. -/
structure RaceData where
  live_odds_data : Option OddsTable := none
  horses : List Horse := []
  race_analysis_pace_scenario : Option String := none
  deriving Repr, DecidableEq

/-- The loop of `_calculate_market_priors` over `tan_odds.items()`
(src/probability_models.py:76-86): builds `implied_probs` (a dict, so
assignment is `upsert`) while accumulating `total_implied_prob` over every
parsed entry.  `none` models the uncaught `ZeroDivisionError` that
`float(odds_str) == 0.0` raises; a failed parse (`ValueError`/`TypeError`)
is skipped. -/
def impliedLoop : List (String × Option ℚ) → List (String × ℚ) → ℚ →
    Option (List (String × ℚ) × ℚ)
  | [], implied_probs, total => some (implied_probs, total)
  | (umaban, os) :: rest, implied_probs, total =>
    match os with
    | none => impliedLoop rest implied_probs total
    | some odds =>
      if odds = 0 then none
      else impliedLoop rest (upsert implied_probs umaban (1 / odds))
        (total + 1 / odds)

/-- The body of the uniform-fallback loop of `_calculate_market_priors`
(src/probability_models.py:70-73): a horse with a truthy `umaban` gets
prior `c`, any other horse is skipped. -/
def uniformStep (c : ℚ) (priors : List (String × ℚ)) (h : Horse) :
    List (String × ℚ) :=
  match h.umaban with
  | some u => if u ≠ "" then upsert priors u c else priors
  | none => priors

/-- The uniform-fallback loop of `_calculate_market_priors`
(src/probability_models.py:69-74): every horse with a truthy `umaban` gets
prior `1 / horse_count`. -/
def uniformLoop (c : ℚ) (horses : List Horse) (priors : List (String × ℚ)) :
    List (String × ℚ) :=
  horses.foldl (uniformStep c) priors

/-- `ProbabilityModels._calculate_market_priors`
(src/probability_models.py:58-92).  Returns `none` when the Python code
raises (odds string parsing to 0.0). -/
def calculate_market_priors (rd : RaceData) : Option (List (String × ℚ)) :=
  let odds_data := rd.live_odds_data.getD []
  let tan_odds := (odds_data.lookup "tan_odds").getD []
  if tan_odds.isEmpty then
    some (uniformLoop (1 / (rd.horses.length : ℚ)) rd.horses [])
  else
    (impliedLoop tan_odds [] 0).map (fun r =>
      if 0 < r.2 then r.1.map (fun p => (p.1, p.2 / r.2)) else [])

/-- The implied-probability entries `(umaban, 1/odds)` of the parsed tan
odds, in iteration order (the contents of `implied_probs` when no key
repeats). -/
def impliedEntries (tan : List (String × Option ℚ)) : List (String × ℚ) :=
  tan.filterMap (fun p => p.2.map (fun o => (p.1, 1 / o)))

/-- `total_implied_prob` as accumulated by the loop: the sum of `1/odds`
over every entry that parses. -/
def total_implied_prob (tan : List (String × Option ℚ)) : ℚ :=
  ((impliedEntries tan).map Prod.snd).sum

/-! ### Association-list facts used by the prior proofs -/


theorem upsert_of_not_mem (l : List (String × α)) (k : String) (v : α)
    (h : k ∉ l.map Prod.fst) : upsert l k v = l ++ [(k, v)] := by
  unfold upsert
  rw [if_neg]
  simp only [List.any_eq_true, decide_eq_true_eq, not_exists, not_and]
  intro p hp hpk
  exact h (hpk ▸ List.mem_map_of_mem Prod.fst hp)

theorem map_fst_overwrite (l : List (String × α)) (k : String) (v : α) :
    (l.map (fun p => if p.1 = k then (k, v) else p)).map Prod.fst =
      l.map Prod.fst := by
  induction l with
  | nil => rfl
  | cons p rest ih =>
    simp only [List.map_cons, ih]
    by_cases hp : p.1 = k
    · simp [hp]
    · simp [hp]

theorem upsert_keys (l : List (String × α)) (k : String) (v : α) :
    (upsert l k v).map Prod.fst =
      if k ∈ l.map Prod.fst then l.map Prod.fst
      else l.map Prod.fst ++ [k] := by
  unfold upsert
  by_cases h : (l.any fun p => p.1 = k) = true
  · rw [if_pos h, map_fst_overwrite, if_pos]
    simp only [List.any_eq_true, decide_eq_true_eq] at h
    rcases h with ⟨p, hp, hpk⟩
    exact hpk ▸ List.mem_map_of_mem Prod.fst hp
  · have hk : k ∉ l.map Prod.fst := by
      intro hmem
      rcases List.mem_map.mp hmem with ⟨p, hp, rfl⟩
      exact h (List.any_eq_true.mpr ⟨p, hp, by simp⟩)
    rw [if_neg h, if_neg hk, List.map_append]
    rfl

theorem mem_keys_upsert_self (l : List (String × α)) (k : String) (v : α) :
    k ∈ (upsert l k v).map Prod.fst := by
  rw [upsert_keys]
  by_cases h : k ∈ l.map Prod.fst
  · rwa [if_pos h]
  · rw [if_neg h]
    simp

theorem mem_keys_upsert_of_mem (l : List (String × α)) (k k' : String)
    (v : α) (h : k ∈ l.map Prod.fst) : k ∈ (upsert l k' v).map Prod.fst := by
  rw [upsert_keys]
  by_cases h' : k' ∈ l.map Prod.fst
  · rwa [if_pos h']
  · rw [if_neg h']
    exact List.mem_append_left _ h

theorem lookup_of_mem_nodup {β : Type} (l : List (String × β)) :
    ∀ (k : String) (v : β), (k, v) ∈ l → (l.map Prod.fst).Nodup →
      l.lookup k = some v := by
  induction l with
  | nil => intro k v hmem _; simp at hmem
  | cons p rest ih =>
    rcases p with ⟨k', v'⟩
    intro k v hmem hnd
    simp only [List.map_cons, List.nodup_cons] at hnd
    rcases List.mem_cons.mp hmem with heq | hmem'
    · rw [show k = k' from congrArg Prod.fst heq,
        show v = v' from congrArg Prod.snd heq]
      simp [List.lookup_cons]
    · have hk : k ≠ k' := by
        intro hkk
        exact hnd.1 (hkk ▸ List.mem_map_of_mem Prod.fst hmem')
      have hb : (k == k') = false := beq_eq_false_iff_ne.mpr hk
      rw [List.lookup_cons, hb]
      exact ih k v hmem' hnd.2

theorem lookup_of_key_mem_const {β : Type} (l : List (String × β)) (c : β) :
    (∀ p ∈ l, p.2 = c) → ∀ s : String, s ∈ l.map Prod.fst →
      l.lookup s = some c := by
  induction l with
  | nil => intro _ s hs; simp at hs
  | cons p rest ih =>
    rcases p with ⟨k', v'⟩
    intro hval s hs
    by_cases hsk : s = k'
    · have hv : v' = c := hval (k', v') (List.mem_cons_self _ _)
      rw [List.lookup_cons, show (s == k') = true from beq_iff_eq.mpr hsk, hv]
    · have hb : (s == k') = false := beq_eq_false_iff_ne.mpr hsk
      rw [List.lookup_cons, hb]
      apply ih (fun q hq => hval q (List.mem_cons_of_mem _ hq)) s
      simp only [List.map_cons, List.mem_cons] at hs
      rcases hs with hs | hs
      · exact absurd hs hsk
      · exact hs

theorem mem_impliedEntries (tan : List (String × Option ℚ)) (u : String)
    (q : ℚ) : (u, some q) ∈ tan → (u, 1 / q) ∈ impliedEntries tan := by
  induction tan with
  | nil => intro h; simp at h
  | cons e rest ih =>
    rcases e with ⟨u', os⟩
    intro h
    rcases List.mem_cons.mp h with heq | hmem
    · have h1 : u' = u := (congrArg Prod.fst heq).symm
      have h2 : os = some q := (congrArg Prod.snd heq).symm
      subst h1
      subst h2
      simp [impliedEntries]
    · cases os with
      | none =>
        simp only [impliedEntries, List.filterMap_cons, Option.map_none']
        exact ih hmem
      | some o =>
        simp only [impliedEntries, List.filterMap_cons, Option.map_some']
        exact List.mem_cons_of_mem _ (ih hmem)

theorem impliedEntries_keys_sublist (tan : List (String × Option ℚ)) :
    ((impliedEntries tan).map Prod.fst).Sublist (tan.map Prod.fst) := by
  induction tan with
  | nil => simp [impliedEntries]
  | cons e rest ih =>
    rcases e with ⟨u, os⟩
    cases os with
    | none =>
      simp only [impliedEntries, List.filterMap_cons, Option.map_none',
        List.map_cons]
      exact ih.cons u
    | some o =>
      simp only [impliedEntries, List.filterMap_cons, Option.map_some',
        List.map_cons]
      exact ih.cons₂ u

theorem impliedEntries_pos (tan : List (String × Option ℚ)) :
    (∀ u q, (u, some q) ∈ tan → 0 < q) →
      ∀ p ∈ impliedEntries tan, 0 < p.2 := by
  induction tan with
  | nil => intro _ p hp; simp [impliedEntries] at hp
  | cons e rest ih =>
    rcases e with ⟨u', os⟩
    intro hpos p hp
    cases os with
    | none =>
      simp only [impliedEntries, List.filterMap_cons, Option.map_none'] at hp
      exact ih (fun u q h => hpos u q (List.mem_cons_of_mem _ h)) p hp
    | some o =>
      simp only [impliedEntries, List.filterMap_cons, Option.map_some'] at hp
      rcases List.mem_cons.mp hp with heq | hmem
      · rw [heq]
        have := hpos u' o (List.mem_cons_self _ _)
        simpa using one_div_pos.mpr this
      · exact ih (fun u q h => hpos u q (List.mem_cons_of_mem _ h)) p hmem

/-- The implied-probability loop, run on tan odds with nodup keys (they come
from a Python dict) and no zero odds, appends exactly the implied entries
and accumulates exactly `total_implied_prob`. -/
theorem impliedLoop_eq (tan : List (String × Option ℚ)) :
    ∀ (acc : List (String × ℚ)) (tot : ℚ),
      (∀ u q, (u, some q) ∈ tan → q ≠ 0) →
      (tan.map Prod.fst).Nodup →
      (∀ k ∈ acc.map Prod.fst, k ∉ tan.map Prod.fst) →
      impliedLoop tan acc tot =
        some (acc ++ impliedEntries tan, tot + total_implied_prob tan) := by
  induction tan with
  | nil =>
    intro acc tot _ _ _
    simp [impliedLoop, impliedEntries, total_implied_prob]
  | cons e rest ih =>
    rcases e with ⟨u, os⟩
    intro acc tot hz hnd hdisj
    simp only [List.map_cons, List.nodup_cons] at hnd
    cases os with
    | none =>
      have hrec := ih acc tot
        (fun u' q' h' => hz u' q' (List.mem_cons_of_mem _ h'))
        hnd.2
        (fun k hk => by
          have hnm := hdisj k hk
          simp only [List.map_cons, List.mem_cons, not_or] at hnm
          exact hnm.2)
      simp only [impliedLoop]
      rw [hrec]
      simp [impliedEntries, total_implied_prob]
    | some o =>
      have ho : o ≠ 0 := hz u o (List.mem_cons_self _ _)
      have hu : u ∉ acc.map Prod.fst := fun hmem => by
        have hnm := hdisj u hmem
        simp at hnm
      simp only [impliedLoop, if_neg ho]
      rw [upsert_of_not_mem acc u (1 / o) hu]
      have hdisj' : ∀ k ∈ (acc ++ [(u, 1 / o)]).map Prod.fst,
          k ∉ rest.map Prod.fst := by
        intro k hk
        simp only [List.map_append, List.mem_append, List.map_cons,
          List.map_nil, List.mem_singleton] at hk
        rcases hk with hk | hk
        · have hnm := hdisj k hk
          simp only [List.map_cons, List.mem_cons, not_or] at hnm
          exact hnm.2
        · exact hk ▸ hnd.1
      have hrec := ih (acc ++ [(u, 1 / o)]) (tot + 1 / o)
        (fun u' q' h' => hz u' q' (List.mem_cons_of_mem _ h'))
        hnd.2 hdisj'
      rw [hrec]
      simp [impliedEntries, total_implied_prob, List.filterMap_cons,
        Option.map_some', add_assoc, List.append_assoc]

theorem sum_map_div (l : List (String × ℚ)) (T : ℚ) :
    ((l.map (fun p => (p.1, p.2 / T))).map Prod.snd).sum =
      ((l.map Prod.snd).sum) / T := by
  induction l with
  | nil => simp
  | cons p rest ih =>
    simp only [List.map_cons, List.sum_cons]
    rw [ih, add_div]

/-! ### C2: market prior normalization -/

/-- C2 counterexample: the claim quantifies over every tan-odds mapping in
which at least one entry parses to a positive decimal, and asserts each such
horse gets `(1/o) / Σ (1/o over the positive-odds horses)`.  With horse `"1"`
at odds 2.0 and horse `"2"` at odds −0.5 the code sums `1/2 + 1/(−0.5) =
−3/2 ≤ 0` over ALL parsed entries, skips normalization, and returns an empty
prior dict — horse `"1"` gets no prior at all, where the claim demands prior
`(1/2)/(1/2) = 1`. -/
theorem market_priors_counterexample :
    calculate_market_priors
      { live_odds_data :=
          some [("tan_odds", [("1", some 2), ("2", some (-(1:ℚ)/2))])] } =
      some [] ∧
    (0:ℚ) < 2 ∧ ((1:ℚ)/2) / ((1:ℚ)/2) = 1 := by
  refine ⟨?_, by norm_num, by norm_num⟩
  have h1 : ((-(1:ℚ)/2) : ℚ) ≠ 0 := by norm_num
  simp only [calculate_market_priors, Option.getD_some, List.lookup_cons,
    impliedLoop, upsert]
  norm_num

/-- C2 (amended): for every tan-odds mapping (nodup keys, being a dict) in
which at least one entry parses and every entry that parses is positive, the
market prior assigns each parsing horse `(1/o)` divided by the sum of `1/o`
over all parsing horses, and the produced priors sum to exactly 1. -/
theorem market_priors_normalization (rd : RaceData)
    (tan : List (String × Option ℚ))
    (htan : (((rd.live_odds_data.getD []).lookup "tan_odds").getD []) = tan)
    (hnd : (tan.map Prod.fst).Nodup)
    (hpos : ∀ u q, (u, some q) ∈ tan → 0 < q)
    (hne : ∃ u q, (u, some q) ∈ tan) :
    ∃ priors, calculate_market_priors rd = some priors ∧
      (∀ u q, (u, some q) ∈ tan →
        priors.lookup u = some ((1 / q) / total_implied_prob tan)) ∧
      (priors.map Prod.snd).sum = 1 := by
  obtain ⟨u0, q0, hu0⟩ := hne
  have htan_ne : ¬ tan.isEmpty = true := by
    cases tan with
    | nil => simp at hu0
    | cons p rest => simp
  have hloop := impliedLoop_eq tan [] 0
    (fun u q h => ne_of_gt (hpos u q h)) hnd (by simp)
  have hT : 0 < total_implied_prob tan := by
    unfold total_implied_prob
    apply List.sum_pos
    · intro x hx
      rcases List.mem_map.mp hx with ⟨p, hp, rfl⟩
      exact impliedEntries_pos tan hpos p hp
    · intro hempty
      rw [List.map_eq_nil_iff] at hempty
      have hm := mem_impliedEntries tan u0 q0 hu0
      rw [hempty] at hm
      simp at hm
  refine ⟨(impliedEntries tan).map
      (fun p => (p.1, p.2 / total_implied_prob tan)), ?_, ?_, ?_⟩
  · simp only [calculate_market_priors]
    rw [htan, if_neg htan_ne, hloop]
    simp only [Option.map_some', List.nil_append, zero_add]
    rw [if_pos hT]
  · intro u q hu
    have hmem : (u, 1 / q) ∈ impliedEntries tan := mem_impliedEntries _ _ _ hu
    have hmem' : (u, (1 / q) / total_implied_prob tan) ∈
        (impliedEntries tan).map
          (fun p => (p.1, p.2 / total_implied_prob tan)) :=
      List.mem_map.mpr ⟨(u, 1 / q), hmem, rfl⟩
    apply lookup_of_mem_nodup _ _ _ hmem'
    have hkeys : ((impliedEntries tan).map
        (fun p => (p.1, p.2 / total_implied_prob tan))).map Prod.fst =
          (impliedEntries tan).map Prod.fst := by
      simp [List.map_map]
    rw [hkeys]
    exact (impliedEntries_keys_sublist tan).nodup hnd
  · rw [sum_map_div]
    exact div_self (ne_of_gt hT)

/-- Witness for C2 at tan odds `{"1": "2.0", "2": "2.0"}`: priors 1/2 each,
summing to 1. -/
theorem market_priors_normalization_witness :
    ∃ priors, calculate_market_priors
        { live_odds_data :=
            some [("tan_odds", [("1", some 2), ("2", some 2)])] } =
        some priors ∧ priors.lookup "1" = some (1/2) ∧
        (priors.map Prod.snd).sum = 1 := by
  obtain ⟨priors, h1, h2, h3⟩ := market_priors_normalization
    { live_odds_data := some [("tan_odds", [("1", some 2), ("2", some 2)])] }
    [("1", some 2), ("2", some 2)] (by simp) (by simp)
    (by intro u q h
        simp only [List.mem_cons, List.not_mem_nil, or_false,
          Prod.mk.injEq, Option.some.injEq] at h
        rcases h with ⟨-, rfl⟩ | ⟨-, rfl⟩ <;> norm_num)
    ⟨"1", 2, by simp⟩
  refine ⟨priors, h1, ?_, h3⟩
  have h4 := h2 "1" 2 (by simp)
  rw [h4]
  norm_num [total_implied_prob, impliedEntries, List.filterMap_cons,
    Option.map_some']

/-! ### C3: uniform fallback prior -/

theorem upsert_values_const {β : Type} (l : List (String × β)) (k : String)
    (c : β) (h : ∀ p ∈ l, p.2 = c) : ∀ p ∈ upsert l k c, p.2 = c := by
  intro p hp
  unfold upsert at hp
  split at hp
  · rcases List.mem_map.mp hp with ⟨q, hq, rfl⟩
    split
    · rfl
    · exact h q hq
  · rcases List.mem_append.mp hp with hq | hq
    · exact h p hq
    · simp only [List.mem_singleton] at hq
      rw [hq]

theorem uniformStep_some (c : ℚ) (acc : List (String × ℚ)) (h : Horse)
    (u : String) (hum : h.umaban = some u) :
    uniformStep c acc h = if u ≠ "" then upsert acc u c else acc := by
  unfold uniformStep
  rw [hum]

theorem uniformStep_none (c : ℚ) (acc : List (String × ℚ)) (h : Horse)
    (hum : h.umaban = none) : uniformStep c acc h = acc := by
  unfold uniformStep
  rw [hum]

theorem uniformLoop_cons (c : ℚ) (h : Horse) (rest : List Horse)
    (acc : List (String × ℚ)) :
    uniformLoop c (h :: rest) acc = uniformLoop c rest (uniformStep c acc h) :=
  rfl

/-- All values produced by the uniform fallback loop equal `c`. -/
theorem uniformLoop_values (horses : List Horse) (c : ℚ) :
    ∀ (acc : List (String × ℚ)), (∀ p ∈ acc, p.2 = c) →
      ∀ p ∈ uniformLoop c horses acc, p.2 = c := by
  induction horses with
  | nil => intro acc hacc; simpa [uniformLoop] using hacc
  | cons h rest ih =>
    intro acc hacc
    rw [uniformLoop_cons]
    cases hum : h.umaban with
    | none =>
      rw [uniformStep_none c acc h hum]
      exact ih acc hacc
    | some u =>
      rw [uniformStep_some c acc h u hum]
      by_cases hne : u ≠ ""
      · rw [if_pos hne]
        exact ih _ (upsert_values_const acc u c hacc)
      · rw [if_neg hne]
        exact ih acc hacc

/-- Every truthy umaban of the horse list ends up among the keys produced by
the uniform fallback loop. -/
theorem uniformLoop_keys (horses : List Horse) (c : ℚ) :
    ∀ (acc : List (String × ℚ)) (s : String),
      (s ∈ acc.map Prod.fst ∨ ∃ h ∈ horses, h.umaban = some s ∧ s ≠ "") →
      s ∈ (uniformLoop c horses acc).map Prod.fst := by
  induction horses with
  | nil =>
    intro acc s hs
    rcases hs with hs | ⟨h, hh, _⟩
    · simpa [uniformLoop] using hs
    · simp at hh
  | cons h rest ih =>
    intro acc s hs
    rw [uniformLoop_cons]
    have hacc_pres : ∀ (s' : String), s' ∈ acc.map Prod.fst →
        s' ∈ (uniformStep c acc h).map Prod.fst := by
      intro s' hs'
      cases hum : h.umaban with
      | none =>
        rw [uniformStep_none c acc h hum]
        exact hs'
      | some u =>
        rw [uniformStep_some c acc h u hum]
        by_cases hne : u ≠ ""
        · rw [if_pos hne]
          exact mem_keys_upsert_of_mem acc s' u c hs'
        · rw [if_neg hne]
          exact hs'
    rcases hs with hs | ⟨h', hh', hum', hne'⟩
    · exact ih _ s (Or.inl (hacc_pres s hs))
    · rcases List.mem_cons.mp hh' with heq | hh'
      · subst heq
        rw [uniformStep_some c acc _ s hum', if_pos hne']
        exact ih _ s (Or.inl (mem_keys_upsert_self acc s c))
      · exact ih _ s (Or.inr ⟨h', hh', hum', hne'⟩)

/-- C3: when no win odds are available for any horse (`tan_odds` empty or
missing), every horse of the race with a (truthy) umaban is assigned the
uniform prior `1/N`, `N` being the number of horses in the race. -/
theorem market_priors_uniform_fallback (rd : RaceData)
    (htan : (((rd.live_odds_data.getD []).lookup "tan_odds").getD []) = [])
    (hu : ∀ h ∈ rd.horses, ∃ s, h.umaban = some s ∧ s ≠ "") :
    ∃ priors, calculate_market_priors rd = some priors ∧
      ∀ h ∈ rd.horses, ∀ s, h.umaban = some s →
        priors.lookup s = some (1 / (rd.horses.length : ℚ)) := by
  refine ⟨uniformLoop (1 / (rd.horses.length : ℚ)) rd.horses [], ?_, ?_⟩
  · simp only [calculate_market_priors]
    rw [htan]
    simp
  · intro h hh s hs
    have hne : s ≠ "" := by
      obtain ⟨s', hs', hne'⟩ := hu h hh
      rw [hs] at hs'
      injection hs' with hss
      subst hss
      exact hne'
    apply lookup_of_key_mem_const _ _
      (uniformLoop_values rd.horses _ [] (by simp))
    exact uniformLoop_keys rd.horses _ [] s (Or.inr ⟨h, hh, hs, hne⟩)

/-- Witness for C3: two horses, no odds, each horse gets prior 1/2. -/
theorem market_priors_uniform_fallback_witness :
    ∃ priors, calculate_market_priors
        { horses := [{ umaban := some "1" }, { umaban := some "2" }] } =
        some priors ∧
      priors.lookup "1" = some (1/2) := by
  obtain ⟨priors, h1, h2⟩ := market_priors_uniform_fallback
    { horses := [{ umaban := some "1" }, { umaban := some "2" }] }
    (by simp)
    (by intro h hh
        rcases List.mem_cons.mp hh with heq | hh2
        · exact ⟨"1", by rw [heq], by simp⟩
        · rcases List.mem_cons.mp hh2 with heq | hh3
          · exact ⟨"2", by rw [heq], by simp⟩
          · simp at hh3)
  refine ⟨priors, h1, ?_⟩
  have h4 := h2 { umaban := some "1" } (by simp) "1" rfl
  simpa using h4

/-! ## Bayesian win probability (src/probability_models.py:128-223) -/

/-- One per-factor data dict of the factor analysis, modelled as a record of
the optional keys the code reads (`key in factor_data` is `Option.isSome`).
`bias_advantage` is read only by the Monte-Carlo simulator. -/
structure FactorData where
  finishing_kick_score : Option ℚ := none
  overall_score : Option ℚ := none
  bias_score : Option ℚ := none
  fast_pace_score : Option ℚ := none
  slow_pace_score : Option ℚ := none
  balanced_pace_score : Option ℚ := none
  weather_advantage : Option String := none
  distance_advantage : Option String := none
  total_score : Option ℚ := none
  bias_advantage : Option String := none
  deriving Repr, DecidableEq

/-- One horse's entry of the factor analysis: the named sub-dicts the code
reads (`factor not in analysis` is `Option.isSome`).  `recovery_pattern` is
in the weight table but no branch of the likelihood loop reads it. -/
structure HorseAnalysis where
  lap_time_analysis : Option FactorData := none
  pedigree_assessment : Option FactorData := none
  track_bias_impact : Option FactorData := none
  pace_adaptability : Option FactorData := none
  weather_impact : Option FactorData := none
  distance_aptitude : Option FactorData := none
  recovery_pattern : Option FactorData := none
  factor_scores : Option FactorData := none
  deriving Repr, DecidableEq

/-- The multiplicative adjustment a numeric 0-100 sub-score contributes:
`1 + (score/100 - 0.5) * weight * 2`, or 1 when the factor or the sub-score
key is missing (src/probability_models.py:163-176,211-214). -/
def numAdj (fd : Option FactorData) (get : FactorData → Option ℚ) (w : ℚ) : ℚ :=
  match fd with
  | none => 1
  | some d =>
    match get d with
    | some score => 1 + (score / 100 - 1/2) * w * 2
    | none => 1

/-- The multiplicative adjustment a categorical advantage flag contributes:
`1 + w` for `"advantage"`, `1 - w*0.5` for `"disadvantage"`, 1 otherwise
(src/probability_models.py:195-209). -/
def advAdj (fd : Option FactorData) (get : FactorData → Option String)
    (w : ℚ) : ℚ :=
  match fd with
  | none => 1
  | some d =>
    match get d with
    | some adv =>
      if adv = "advantage" then 1 + w
      else if adv = "disadvantage" then 1 - w * (1/2)
      else 1
    | none => 1

/-- The pace-scenario sub-score key selected for a horse
(src/probability_models.py:178-189): defaults to the balanced score; the
race's pace scenario is consulted only when the horse appears in
`race_data["horses"]`. -/
def paceKey (rd : RaceData) (umaban : String) : String :=
  if rd.horses.any (fun h => h.umaban = some umaban) then
    match rd.race_analysis_pace_scenario with
    | some s =>
      if s = "fast" then "fast_pace_score"
      else if s = "slow" then "slow_pace_score"
      else "balanced_pace_score"
    | none => "balanced_pace_score"
  else "balanced_pace_score"

/-- Field selection `factor_data[pace_scenario]` for the three pace keys. -/
def paceField (key : String) (d : FactorData) : Option ℚ :=
  if key = "fast_pace_score" then d.fast_pace_score
  else if key = "slow_pace_score" then d.slow_pace_score
  else d.balanced_pace_score

/-- The likelihood ratio accumulated over the eight weighted factors
(src/probability_models.py:139-214), weights 0.15/0.10/0.15/0.20/0.10/0.15/
0.05/0.10; the `recovery_pattern` factor (weight 0.05) has no branch and
contributes nothing. -/
def likelihood_ratio (rd : RaceData) (umaban : String) (a : HorseAnalysis) : ℚ :=
  numAdj a.lap_time_analysis FactorData.finishing_kick_score (15/100) *
  numAdj a.pedigree_assessment FactorData.overall_score (10/100) *
  numAdj a.track_bias_impact FactorData.bias_score (15/100) *
  numAdj a.pace_adaptability (paceField (paceKey rd umaban)) (20/100) *
  advAdj a.weather_impact FactorData.weather_advantage (10/100) *
  advAdj a.distance_aptitude FactorData.distance_advantage (15/100) *
  numAdj a.factor_scores FactorData.total_score (10/100)

/-- One step of the posterior loop (src/probability_models.py:150-216): a
horse absent from the posterior is skipped, otherwise its entry becomes
`prior * likelihood_ratio`. -/
def bayesStep (rd : RaceData) (post : List (String × ℚ))
    (p : String × HorseAnalysis) : List (String × ℚ) :=
  match post.lookup p.1 with
  | none => post
  | some prior => upsert post p.1 (prior * likelihood_ratio rd p.1 p.2)

/-- The posterior dict before the final renormalization
(src/probability_models.py:137-216): starts as a copy of the market priors
and folds the likelihood step over the factor analysis. -/
def bayesian_unnormalized (rd : RaceData) (market_priors : List (String × ℚ))
    (factor_analysis : List (String × HorseAnalysis)) : List (String × ℚ) :=
  factor_analysis.foldl (bayesStep rd) market_priors

/-- `ProbabilityModels.bayesian_win_probability`
(src/probability_models.py:128-223): posterior loop followed by
renormalization when the total is positive. -/
def bayesian_win_probability (rd : RaceData)
    (market_priors : List (String × ℚ))
    (factor_analysis : List (String × HorseAnalysis)) : List (String × ℚ) :=
  let posterior_probs := bayesian_unnormalized rd market_priors factor_analysis
  let total_posterior := (posterior_probs.map Prod.snd).sum
  if 0 < total_posterior then
    posterior_probs.map (fun p => (p.1, p.2 / total_posterior))
  else
    posterior_probs

/-! ### C4: horses absent from the factor analysis -/

theorem lookup_map_overwrite_ne (l : List (String × α)) (k u : String)
    (v : α) (h : u ≠ k) :
    (l.map (fun p => if p.1 = k then (k, v) else p)).lookup u = l.lookup u := by
  induction l with
  | nil => rfl
  | cons p rest ih =>
    rcases p with ⟨pk, pv⟩
    simp only [List.map_cons]
    by_cases hp : pk = k
    · rw [show (if (pk, pv).1 = k then (k, v) else (pk, pv)) = (k, v)
        from if_pos hp]
      rw [List.lookup_cons, List.lookup_cons,
        show (u == k) = false from beq_eq_false_iff_ne.mpr h,
        show (u == pk) = false from
          beq_eq_false_iff_ne.mpr (fun he => h (he.trans hp))]
      exact ih
    · rw [show (if (pk, pv).1 = k then (k, v) else (pk, pv)) = (pk, pv)
        from if_neg hp]
      rw [List.lookup_cons, List.lookup_cons]
      by_cases hu : u = pk
      · rw [show (u == pk) = true from beq_iff_eq.mpr hu]
      · rw [show (u == pk) = false from beq_eq_false_iff_ne.mpr hu]
        exact ih

theorem lookup_append_single (l : List (String × α)) (k u : String) (v : α)
    (h : u ≠ k) : (l ++ [(k, v)]).lookup u = l.lookup u := by
  induction l with
  | nil =>
    rw [List.nil_append, List.lookup_cons,
      show (u == k) = false from beq_eq_false_iff_ne.mpr h]
  | cons p rest ih =>
    rcases p with ⟨pk, pv⟩
    rw [List.cons_append, List.lookup_cons, List.lookup_cons]
    by_cases hu : u = pk
    · rw [show (u == pk) = true from beq_iff_eq.mpr hu]
    · rw [show (u == pk) = false from beq_eq_false_iff_ne.mpr hu]
      exact ih

theorem lookup_upsert_ne (l : List (String × α)) (k u : String) (v : α)
    (h : u ≠ k) : (upsert l k v).lookup u = l.lookup u := by
  unfold upsert
  split
  · exact lookup_map_overwrite_ne l k u v h
  · exact lookup_append_single l k u v h

theorem bayesStep_lookup_ne (rd : RaceData) (post : List (String × ℚ))
    (p : String × HorseAnalysis) (u : String) (h : u ≠ p.1) :
    (bayesStep rd post p).lookup u = post.lookup u := by
  unfold bayesStep
  cases hl : post.lookup p.1 with
  | none => rfl
  | some prior => exact lookup_upsert_ne post p.1 u _ h

theorem bayesian_unnormalized_absent (rd : RaceData)
    (fa : List (String × HorseAnalysis)) :
    ∀ (priors : List (String × ℚ)) (u : String), u ∉ fa.map Prod.fst →
      (bayesian_unnormalized rd priors fa).lookup u = priors.lookup u := by
  induction fa with
  | nil => intro priors u _; rfl
  | cons p rest ih =>
    intro priors u hu
    simp only [List.map_cons, List.mem_cons, not_or] at hu
    have hstep : bayesian_unnormalized rd priors (p :: rest) =
        bayesian_unnormalized rd (bayesStep rd priors p) rest := rfl
    rw [hstep, ih _ u hu.2]
    exact bayesStep_lookup_ne rd priors p u hu.1

theorem map_div_one (l : List (String × ℚ)) :
    l.map (fun p => (p.1, p.2 / 1)) = l := by
  induction l with
  | nil => rfl
  | cons p rest ih => simp [ih]

/-- C4 counterexample: the claim says a horse with a market prior that is
absent from the factor analysis keeps its prior unchanged in the returned
posterior.  With priors `{"1": 1/2, "2": 1/2}` (odds 2.0 each) and a factor
analysis containing only horse `"2"` with `factor_scores.total_score = 100`
(likelihood ratio 1.1), the final renormalization divides by the total
21/20, so absent horse `"1"` is returned `10/21 ≠ 1/2`. -/
theorem bayesian_prior_not_preserved :
    calculate_market_priors
      { live_odds_data := some [("tan_odds", [("1", some 2), ("2", some 2)])] } =
      some [("1", 1/2), ("2", 1/2)] ∧
    (([("2", { factor_scores := some { total_score := some 100 } })] :
        List (String × HorseAnalysis)).map Prod.fst) = ["2"] ∧
    (bayesian_win_probability
        { live_odds_data := some [("tan_odds", [("1", some 2), ("2", some 2)])] }
        [("1", 1/2), ("2", 1/2)]
        [("2", { factor_scores := some { total_score := some 100 } })]).lookup "1" =
      some (10/21) ∧
    ((10:ℚ)/21) ≠ 1/2 := by
  have h21 : (("2":String) == "1") = false := by decide
  have h12 : ¬("1":String) = "2" := by decide
  refine ⟨?_, by simp, ?_, by norm_num⟩
  · simp only [calculate_market_priors, Option.getD_some, List.lookup_cons,
      impliedLoop, upsert]
    norm_num [h12]
  · norm_num [bayesian_win_probability, bayesian_unnormalized, List.foldl_cons,
      List.foldl_nil, bayesStep, likelihood_ratio, numAdj, advAdj, paceKey,
      paceField, upsert, List.lookup_cons, h21, h12]

/-- C4 (amended): a horse with a market prior that is absent from the factor
analysis keeps its prior unchanged in the posterior dict *before* the final
renormalization (so only the posterior-wide normalization constant touches
it); and when the factor analysis is empty for all horses and the market
priors sum to 1 (as odds-derived priors do), the returned posterior equals
the market prior unchanged. -/
theorem bayesian_market_prior_edge (rd : RaceData)
    (priors : List (String × ℚ)) (fa : List (String × HorseAnalysis))
    (u : String) (hu : u ∉ fa.map Prod.fst) :
    (bayesian_unnormalized rd priors fa).lookup u = priors.lookup u ∧
    (fa = [] → (priors.map Prod.snd).sum = 1 →
      bayesian_win_probability rd priors fa = priors) := by
  constructor
  · exact bayesian_unnormalized_absent rd fa priors u hu
  · intro hfa hsum
    subst hfa
    simp only [bayesian_win_probability, bayesian_unnormalized, List.foldl_nil]
    rw [hsum, if_pos one_pos, map_div_one]

/-- Witness for C4 at priors `{"1": 1/2, "2": 1/2}` and empty factor
analysis. -/
theorem bayesian_market_prior_edge_witness :
    (bayesian_unnormalized {} [("1", (1:ℚ)/2), ("2", 1/2)] []).lookup "3" =
      List.lookup "3" [("1", (1:ℚ)/2), ("2", 1/2)] ∧
    bayesian_win_probability {} [("1", (1:ℚ)/2), ("2", 1/2)] [] =
      [("1", 1/2), ("2", 1/2)] := by
  have h := bayesian_market_prior_edge {} [("1", (1:ℚ)/2), ("2", 1/2)] []
    "3" (by simp)
  exact ⟨h.1, h.2 rfl (by norm_num)⟩

/-! ## Value-bet selection (src/betting_analyzer.py, src/bet_type_analyzer.py) -/

/-- The breakeven-threshold table, identical in src/betting_analyzer.py:20-28
and src/bet_type_analyzer.py:14-22. -/
def BREAKEVEN_THRESHOLD : List (String × ℚ) :=
  [("tan", 125/100), ("fuku", 125/100), ("umaren", 129/100),
   ("umatan", 129/100), ("wide", 129/100), ("sanrentan", 133/100),
   ("sanrenpuku", 133/100)]

/-- `MIN_EXPECTED_VALUE = 1.1` (src/betting_analyzer.py:17,
src/bet_type_analyzer.py:24). -/
def MIN_EXPECTED_VALUE : ℚ := 11/10

/-- The per-bet-type selection loop of
`BettingAnalyzer._make_betting_decisions` (src/betting_analyzer.py:301-306,
repeated verbatim for fuku at 315-320 and umaren at 329-334): an entry
replaces the running best only when `ev > best_ev and ev > threshold`. -/
def bestBetLoopA (threshold : ℚ) :
    List (String × ℚ) → Option String × ℚ → Option String × ℚ
  | [], best => best
  | (key, ev) :: rest, best =>
    bestBetLoopA threshold rest
      (if best.2 < ev ∧ threshold < ev then (some key, ev) else best)

/-- The per-bet-type selection loop of
`BetTypeAnalyzer._identify_value_bets` (src/bet_type_analyzer.py:100-106):
an entry replaces the running best only when
`ev > threshold and ev > best_ev`. -/
def bestBetLoopB (threshold : ℚ) :
    List (String × ℚ) → Option String × ℚ → Option String × ℚ
  | [], best => best
  | (key, ev) :: rest, best =>
    bestBetLoopB threshold rest
      (if threshold < ev ∧ best.2 < ev then (some key, ev) else best)

/-- The best candidate `BettingAnalyzer._make_betting_decisions` keeps for
one bet type, starting from `best_ev = 0`, `best = None`; the threshold is
`BREAKEVEN_THRESHOLD[bet_type] * MIN_EXPECTED_VALUE` (the analyzer indexes
the table directly with one of its seven keys, where indexing and
`.get(bt, 1.25)` agree). -/
def make_betting_decisions_best (bt : String) (evs : List (String × ℚ)) :
    Option String × ℚ :=
  bestBetLoopA ((BREAKEVEN_THRESHOLD.lookup bt).getD (125/100) *
    MIN_EXPECTED_VALUE) evs (none, 0)

/-- The best candidate `BetTypeAnalyzer._identify_value_bets` keeps for one
bet type, starting from `best_ev = 0`, `best_key = None`; the threshold is
`BREAKEVEN_THRESHOLD.get(bet_type, 1.25) * MIN_EXPECTED_VALUE`
(src/bet_type_analyzer.py:98). -/
def identify_value_bets_best (bt : String) (evs : List (String × ℚ)) :
    Option String × ℚ :=
  bestBetLoopB ((BREAKEVEN_THRESHOLD.lookup bt).getD (125/100) *
    MIN_EXPECTED_VALUE) evs (none, 0)

/-! ### C7: threshold boundary -/

theorem bestBetLoopB_eq_A (threshold : ℚ) :
    ∀ (l : List (String × ℚ)) (acc : Option String × ℚ),
      bestBetLoopB threshold l acc = bestBetLoopA threshold l acc := by
  intro l
  induction l with
  | nil => intro acc; rfl
  | cons e rest ih =>
    rcases e with ⟨key, ev⟩
    intro acc
    show bestBetLoopB threshold rest
        (if threshold < ev ∧ acc.2 < ev then (some key, ev) else acc) =
      bestBetLoopA threshold rest
        (if acc.2 < ev ∧ threshold < ev then (some key, ev) else acc)
    rw [if_congr and_comm rfl rfl]
    exact ih _

/-- Any key the A-loop selects carries an expected value strictly above the
threshold and is an entry of the scanned list. -/
theorem bestBetLoopA_spec (threshold : ℚ) (L : List (String × ℚ)) :
    ∀ (l : List (String × ℚ)) (acc : Option String × ℚ),
      (∀ e ∈ l, e ∈ L) →
      (∀ k, acc.1 = some k → (k, acc.2) ∈ L ∧ threshold < acc.2) →
      ∀ k, (bestBetLoopA threshold l acc).1 = some k →
        (k, (bestBetLoopA threshold l acc).2) ∈ L ∧
          threshold < (bestBetLoopA threshold l acc).2 := by
  intro l
  induction l with
  | nil => intro acc _ hacc k hk; exact hacc k hk
  | cons e rest ih =>
    rcases e with ⟨key, ev⟩
    intro acc hsub hacc k hk
    rw [show bestBetLoopA threshold ((key, ev) :: rest) acc =
        bestBetLoopA threshold rest
          (if acc.2 < ev ∧ threshold < ev then (some key, ev) else acc)
      from rfl] at hk ⊢
    refine ih _ (fun e he => hsub e (List.mem_cons_of_mem _ he)) ?_ k hk
    intro k' hk'
    by_cases hcond : acc.2 < ev ∧ threshold < ev
    · rw [if_pos hcond] at hk' ⊢
      have : key = k' := Option.some.inj hk'
      subst this
      exact ⟨hsub (key, ev) (List.mem_cons_self _ _), hcond.2⟩
    · rw [if_neg hcond] at hk' ⊢
      exact hacc k' hk'

/-- When some scanned entry is strictly above a nonnegative threshold, the
A-loop ends with a selected key. -/
theorem bestBetLoopA_some (threshold : ℚ) (hth : 0 ≤ threshold) :
    ∀ (l : List (String × ℚ)) (acc : Option String × ℚ),
      (acc.1 = none → acc.2 = 0) →
      ((∃ e ∈ l, threshold < e.2) ∨ acc.1 ≠ none) →
      (bestBetLoopA threshold l acc).1 ≠ none := by
  intro l
  induction l with
  | nil =>
    intro acc _ h
    rcases h with ⟨e, he, _⟩ | h
    · simp at he
    · exact h
  | cons e rest ih =>
    rcases e with ⟨key, ev⟩
    intro acc hacc h
    rw [show bestBetLoopA threshold ((key, ev) :: rest) acc =
        bestBetLoopA threshold rest
          (if acc.2 < ev ∧ threshold < ev then (some key, ev) else acc)
      from rfl]
    by_cases hcond : acc.2 < ev ∧ threshold < ev
    · rw [if_pos hcond]
      exact ih _ (by intro hnone; simp at hnone) (Or.inr (by simp))
    · rw [if_neg hcond]
      apply ih _ hacc
      rcases h with ⟨e', he', hev'⟩ | hsome
      · rcases List.mem_cons.mp he' with heq | he'
        · right
          intro hnone
          have h0 := hacc hnone
          rw [heq] at hev'
          have hle : ¬(acc.2 < ev) := fun hlt => hcond ⟨hlt, hev'⟩
          push_neg at hle
          rw [h0] at hle
          exact absurd (lt_of_lt_of_le hev' hle) (by linarith)
        · exact Or.inl ⟨e', he', hev'⟩
      · exact Or.inr hsome

theorem mem_nodup_unique {β : Type} (l : List (String × β))
    (hnd : (l.map Prod.fst).Nodup) {k : String} {a b : β}
    (ha : (k, a) ∈ l) (hb : (k, b) ∈ l) : a = b := by
  have h1 := lookup_of_mem_nodup l k a ha hnd
  have h2 := lookup_of_mem_nodup l k b hb hnd
  rw [h1] at h2
  exact Option.some.inj h2

theorem lookup_getD_pos (l : List (String × ℚ)) (d : ℚ) (hd : 0 < d)
    (hl : ∀ p ∈ l, 0 < p.2) (k : String) : 0 < (l.lookup k).getD d := by
  induction l with
  | nil => simpa using hd
  | cons p rest ih =>
    rcases p with ⟨k', v'⟩
    rw [List.lookup_cons]
    by_cases hk : k = k'
    · rw [show (k == k') = true from beq_iff_eq.mpr hk]
      simpa using hl (k', v') (List.mem_cons_self _ _)
    · rw [show (k == k') = false from beq_eq_false_iff_ne.mpr hk]
      exact ih (fun p hp => hl p (List.mem_cons_of_mem _ hp))

theorem threshold_pos (bt : String) :
    0 < (BREAKEVEN_THRESHOLD.lookup bt).getD (125/100) * MIN_EXPECTED_VALUE := by
  apply mul_pos
  · apply lookup_getD_pos _ _ (by norm_num)
    intro p hp
    simp only [BREAKEVEN_THRESHOLD, List.mem_cons, List.not_mem_nil,
      or_false] at hp
    rcases hp with rfl | rfl | rfl | rfl | rfl | rfl | rfl <;> norm_num
  · norm_num [MIN_EXPECTED_VALUE]

/-- C7: in the value-bet selection of both analyzer variants, a candidate
whose expected value is exactly `BREAKEVEN_THRESHOLD[bt] * 1.1` is never the
selected recommendation, while the presence of a candidate strictly above
that product guarantees that some candidate is selected. -/
theorem value_bet_threshold_boundary (bt : String) (evs : List (String × ℚ))
    (hnd : (evs.map Prod.fst).Nodup) :
    (∀ k, (k, (BREAKEVEN_THRESHOLD.lookup bt).getD (125/100) *
        MIN_EXPECTED_VALUE) ∈ evs →
      (make_betting_decisions_best bt evs).1 ≠ some k ∧
      (identify_value_bets_best bt evs).1 ≠ some k) ∧
    (∀ k e, (k, e) ∈ evs →
      (BREAKEVEN_THRESHOLD.lookup bt).getD (125/100) * MIN_EXPECTED_VALUE < e →
      (make_betting_decisions_best bt evs).1 ≠ none ∧
      (identify_value_bets_best bt evs).1 ≠ none) := by
  have hBeq : identify_value_bets_best bt evs =
      make_betting_decisions_best bt evs := bestBetLoopB_eq_A _ evs (none, 0)
  constructor
  · intro k hk
    have hA : (make_betting_decisions_best bt evs).1 ≠ some k := by
      intro hsel
      have hspec := bestBetLoopA_spec _ evs evs (none, 0) (fun e he => he)
        (by intro k' hk'; simp at hk') k hsel
      have heq := mem_nodup_unique evs hnd hk hspec.1
      rw [← heq] at hspec
      exact lt_irrefl _ hspec.2
    exact ⟨hA, by rw [hBeq]; exact hA⟩
  · intro k e hke he
    have hA : (make_betting_decisions_best bt evs).1 ≠ none :=
      bestBetLoopA_some _ (le_of_lt (threshold_pos bt)) evs (none, 0)
        (fun _ => rfl) (Or.inl ⟨(k, e), hke, he⟩)
    exact ⟨hA, by rw [hBeq]; exact hA⟩

/-- Witness for C7: bet type `"tan"`, one candidate exactly at the threshold
`1.375` and one at `1.4`; the at-threshold candidate is never selected and a
candidate is selected. -/
theorem value_bet_threshold_boundary_witness :
    (make_betting_decisions_best "tan"
      [("1", (BREAKEVEN_THRESHOLD.lookup "tan").getD (125/100) *
          MIN_EXPECTED_VALUE), ("2", 7/5)]).1 ≠ some "1" ∧
    (identify_value_bets_best "tan"
      [("1", (BREAKEVEN_THRESHOLD.lookup "tan").getD (125/100) *
          MIN_EXPECTED_VALUE), ("2", 7/5)]).1 ≠ none := by
  have h := value_bet_threshold_boundary "tan"
    [("1", (BREAKEVEN_THRESHOLD.lookup "tan").getD (125/100) *
        MIN_EXPECTED_VALUE), ("2", 7/5)]
    (by simp)
  refine ⟨(h.1 "1" (List.mem_cons_self _ _)).1, ?_⟩
  refine (h.2 "2" (7/5) (by simp) ?_).2
  norm_num [BREAKEVEN_THRESHOLD, MIN_EXPECTED_VALUE]

/-! ## Portfolio strategy (src/bet_type_analyzer.py:167-185) -/

/-- A betting recommendation, restricted to the keys
`_apply_portfolio_strategy` reads: `rec.get("expected_value", 0)` for the
sort key, `rec.get("amount", 0)` / `"amount" in rec` for the stakes, and the
`portfolio_adjusted` flag it sets. -/
structure Recommendation where
  expected_value : Option ℚ := none
  amount : Option ℤ := none
  portfolio_adjusted : Bool := false
  deriving Repr, DecidableEq

/-- The per-recommendation scaling of src/bet_type_analyzer.py:181-184:
`rec["amount"] = math.ceil(rec["amount"] * scale_factor / 100) * 100` with
`scale_factor = 20000 / total`, applied only when the rec has an amount. -/
def scaleRec (total : ℤ) (r : Recommendation) : Recommendation :=
  match r.amount with
  | some a =>
    { r with
        amount := some (⌈((a : ℚ) * ((20000 : ℚ) / (total : ℚ))) / 100⌉ * 100)
        portfolio_adjusted := true }
  | none => r

/-- `BetTypeAnalyzer._apply_portfolio_strategy`
(src/bet_type_analyzer.py:167-185): no-op for at most one recommendation;
otherwise sort descending by expected value (Python's stable sort with
`reverse=True`), and when the summed stakes exceed `MAX_PORTFOLIO_SIZE =
20000` scale every stake and round it up to the next 100. -/
def apply_portfolio_strategy (recs : List Recommendation) :
    List Recommendation :=
  if recs.length ≤ 1 then recs
  else
    let sorted := recs.mergeSort (fun a b =>
      decide ((b.expected_value.getD 0) ≤ (a.expected_value.getD 0)))
    let total_bet_amount := (sorted.map (fun r => r.amount.getD 0)).sum
    if 20000 < total_bet_amount then sorted.map (scaleRec total_bet_amount)
    else sorted

/-! ### C8: portfolio cap -/

/-- Every stake the scaling step emits is a multiple of 100 (a missing
amount reads as 0, also a multiple of 100). -/
theorem scaleRec_amount_mod (total : ℤ) (r : Recommendation) :
    (scaleRec total r).amount.getD 0 % 100 = 0 := by
  unfold scaleRec
  cases h : r.amount with
  | none => simp [h]
  | some a => simp [Int.mul_emod_left]

/-- The three 7000-yen recommendations of the C8 failing input, in
descending expected-value order. -/
def c8recs : List Recommendation :=
  [{ expected_value := some 3, amount := some 7000 },
   { expected_value := some 2, amount := some 7000 },
   { expected_value := some 1, amount := some 7000 }]

/-- C8: with three recommendations of 7000 yen each (total 21000 > 20000),
the portfolio strategy scales each stake by 20000/21000 and rounds UP to
6700, so the post-scaling total is 20100 — strictly above the cap of 20000
that the claim (and the code's own `MAX_PORTFOLIO_SIZE` comment) promises,
although every individual stake is indeed a multiple of 100. -/
theorem portfolio_cap_violation :
    (c8recs.map (fun r => r.amount.getD 0)).sum = 21000 ∧
    (20000 : ℤ) < 21000 ∧
    ((apply_portfolio_strategy c8recs).map (fun r => r.amount.getD 0)).sum =
      20100 ∧
    (20000 : ℤ) < 20100 ∧
    ∀ r ∈ apply_portfolio_strategy c8recs, r.amount.getD 0 % 100 = 0 := by
  have hperm := List.mergeSort_perm c8recs (fun a b =>
    decide ((b.expected_value.getD 0) ≤ (a.expected_value.getD 0)))
  have htotal : ((c8recs.mergeSort (fun a b =>
      decide ((b.expected_value.getD 0) ≤ (a.expected_value.getD 0)))).map
        (fun r => r.amount.getD 0)).sum = 21000 := by
    rw [(hperm.map (fun r => r.amount.getD 0)).sum_eq]
    norm_num [c8recs]
  have hstrategy : apply_portfolio_strategy c8recs =
      (c8recs.mergeSort (fun a b =>
        decide ((b.expected_value.getD 0) ≤ (a.expected_value.getD 0)))).map
          (scaleRec 21000) := by
    simp only [apply_portfolio_strategy]
    rw [if_neg (by norm_num [c8recs]), htotal,
      if_pos (by norm_num : (20000:ℤ) < 21000)]
  have hceil : (⌈(200:ℚ)/3⌉ : ℤ) = 67 := by
    rw [Int.ceil_eq_iff]; norm_num
  refine ⟨by norm_num [c8recs], by norm_num, ?_, by norm_num, ?_⟩
  · rw [hstrategy, ((hperm.map (scaleRec 21000)).map
      (fun r => r.amount.getD 0)).sum_eq]
    norm_num [c8recs, scaleRec, hceil]
  · intro r hr
    rw [hstrategy] at hr
    obtain ⟨r0, _, rfl⟩ := List.mem_map.mp hr
    exact scaleRec_amount_mod _ _

/-! ## Live-update reconciliation (src/probability_models.py:563-663) -/

/-- The track-condition dict slice the reconciler reads:
`condition` and `moisture` (the latter via `.get("moisture", 0)`). -/
structure TrackCondition where
  condition : Option String := none
  moisture : Option ℚ := none
  deriving Repr, DecidableEq

/-- The weather dict slice the reconciler reads (defaults 0 via `.get`). -/
structure WeatherData where
  weather : Option String := none
  precipitation_prob : Option ℚ := none
  wind_speed : Option ℚ := none
  deriving Repr, DecidableEq

/-- The per-horse odds-change scan of src/probability_models.py:620-633: a
horse present in both tan dicts whose odds both parse, whose previous odds
are positive and whose relative change is at least 0.15 triggers
recalculation; parse failures are skipped. -/
def oddsChangeSignificant (prev_tan curr_tan : List (String × Option ℚ)) :
    Bool :=
  prev_tan.any (fun p =>
    match curr_tan.lookup p.1 with
    | some (some curr_odds) =>
      match p.2 with
      | some prev_odds =>
        if 0 < prev_odds then
          if (15:ℚ)/100 ≤ |curr_odds - prev_odds| / prev_odds then true
          else false
        else false
      | none => false
    | _ => false)

/-- `sorted(tan.items(), key=lambda x: float(x[1]))` succeeds only when every
odds string parses (a single failure raises `ValueError`, caught by the
surrounding `except`). -/
def allParsed : List (String × Option ℚ) → Option (List (String × ℚ))
  | [] => some []
  | (u, os) :: rest =>
    match os, allParsed rest with
    | some o, some r => some ((u, o) :: r)
    | _, _ => none

/-- The horse numbers of the three lowest-odds entries, stable ascending
sort by parsed odds (src/probability_models.py:636-640). -/
def top3Keys (l : List (String × ℚ)) : List String :=
  ((l.mergeSort (fun a b => decide (a.2 ≤ b.2))).take 3).map Prod.fst

/-- The top-3-favorites comparison of src/probability_models.py:635-646,
skipped entirely when either snapshot has an unparseable odds string. -/
def top3Changed (prev_tan curr_tan : List (String × Option ℚ)) : Bool :=
  match allParsed prev_tan, allParsed curr_tan with
  | some pl, some cl => if top3Keys pl ≠ top3Keys cl then true else false
  | _, _ => false

/-- The weight-change scan of src/probability_models.py:648-661: umaban,
weight and weight_diff must all be truthy and the sign-stripped diff must
parse and exceed 6 kg. -/
def weightGate (h : Horse) : Bool :=
  match h.umaban, h.weight, h.weight_diff_mag with
  | some u, some w, some diff =>
    if u ≠ "" then if w ≠ "" then (if 6 < diff then true else false)
      else false
    else false
  | _, _, _ => false

def weightChangeSignificant (horses : List Horse) : Bool :=
  horses.any weightGate

/-- `ProbabilityModels._check_recalculation_needed`
(src/probability_models.py:563-663).  `elapsed` is
`time.time() - self.last_full_recalculation_time`; `horses` is
`race_data["horses"]` when the key is present.  NOTE: the odds branch probes
the snapshots for the key `"tan"`, not `"tan_odds"`. -/
def check_recalculation_needed (elapsed : ℚ)
    (previous_odds_data current_odds_data : OddsTable)
    (previous_track_condition current_track_condition : TrackCondition)
    (previous_weather_data current_weather_data : WeatherData)
    (horses : Option (List Horse)) : Bool :=
  if 1800 < elapsed then true
  else if previous_track_condition.condition ≠
      current_track_condition.condition then true
  else if 2 ≤ |current_track_condition.moisture.getD 0 -
      previous_track_condition.moisture.getD 0| then true
  else if previous_weather_data.weather ≠ current_weather_data.weather then
    true
  else if 20 ≤ |current_weather_data.precipitation_prob.getD 0 -
      previous_weather_data.precipitation_prob.getD 0| then true
  else if 5 ≤ current_weather_data.wind_speed.getD 0 ∧
      previous_weather_data.wind_speed.getD 0 < 5 then true
  else if (match previous_odds_data.lookup "tan",
      current_odds_data.lookup "tan" with
    | some prev_tan, some curr_tan =>
      oddsChangeSignificant prev_tan curr_tan || top3Changed prev_tan curr_tan
    | _, _ => false) then true
  else if (match horses with
    | some hs => weightChangeSignificant hs
    | none => false) then true
  else false

/-! ### C9: a ≥15% win-odds move must trigger recalculation -/

/-- The track, weather and horse data of the C9 failing input: unchanged
between the snapshots, with a 0 kg weight change. -/
def c9track : TrackCondition := { condition := some "good", moisture := some 8 }

def c9weather : WeatherData :=
  { weather := some "sunny", precipitation_prob := some 10,
    wind_speed := some 3 }

def c9horse : Horse :=
  { umaban := some "1", weight := some "480", weight_diff_mag := some 0 }

/-- C9: live odds snapshots are keyed `"tan_odds"` (spec §6, and every other
consumer in probability_models.py reads `tan_odds`), but
`_check_recalculation_needed` probes for `"tan"`.  So with the favorite
moving 3.0 → 2.5 (a 16.7% ≥ 15% relative change), track condition, weather
and weights unchanged and no 30 minutes elapsed, the check returns `false` —
the odds trigger is dead for interface-shaped snapshots.  The same snapshots
keyed `"tan"` (the shape the JRA odds-API client produces) return `true`,
isolating the key mismatch as the cause. -/
theorem odds_change_not_detected :
    check_recalculation_needed 0
      [("tan_odds", [("1", some 3)])] [("tan_odds", [("1", some (5/2))])]
      c9track c9track c9weather c9weather (some [c9horse]) = false ∧
    (15:ℚ)/100 ≤ |(5/2 : ℚ) - 3| / 3 ∧
    check_recalculation_needed 0
      [("tan", [("1", some 3)])] [("tan", [("1", some (5/2))])]
      c9track c9track c9weather c9weather (some [c9horse]) = true := by
  have hA : (("tan":String) == "tan_odds") = false := by decide
  have hC : ¬ ("1":String) = "" := by decide
  have hD : ¬ ("480":String) = "" := by decide
  have habs : |(5/2 : ℚ) - 3| = 1/2 := by
    rw [show (5/2 : ℚ) - 3 = -(1/2) from by norm_num, abs_neg,
      abs_of_pos (by norm_num : (0:ℚ) < 1/2)]
  refine ⟨?_, by rw [habs]; norm_num, ?_⟩
  · norm_num [check_recalculation_needed, c9track, c9weather, c9horse,
      weightChangeSignificant, weightGate, List.lookup_cons, hA, hC, hD]
  · norm_num [check_recalculation_needed, c9track, c9weather, c9horse,
      weightChangeSignificant, weightGate, oddsChangeSignificant,
      List.lookup_cons, List.any_cons, habs, hC, hD]
    left
    rw [abs_of_pos (by norm_num : (0:ℚ) < 1/2)]
    norm_num

/-! ## Monte-Carlo simulation (src/probability_models.py:279-420) -/

/-- `self.simulation_results` as written by `_run_monte_carlo_simulation`. -/
structure SimTally where
  exacta_counts : List (String × ℕ) := []
  quinella_counts : List (String × ℕ) := []
  trifecta_counts : List (String × ℕ) := []
  trio_counts : List (String × ℕ) := []
  num_simulations : ℕ := 0
  deriving Repr, DecidableEq

/-- `counts[key] = counts.get(key, 0) + 1`. -/
def bump (counts : List (String × ℕ)) (key : String) : List (String × ℕ) :=
  upsert counts key ((counts.lookup key).getD 0 + 1)

/-- The multiplicative adjustments applied to one horse's drawn value
(src/probability_models.py:303-323): pace-scenario fit, then track-bias
advantage, both only when the horse is in the factor analysis. -/
def adjustRandomValue (rd : RaceData) (fa : List (String × HorseAnalysis))
    (umaban : String) (v : ℚ) : ℚ :=
  match fa.lookup umaban with
  | none => v
  | some analysis =>
    let pace_scenario := (rd.race_analysis_pace_scenario).getD "balanced"
    let v :=
      if pace_scenario = "fast" then
        match analysis.pace_adaptability with
        | some pd =>
          match pd.fast_pace_score with
          | some score => v * (1 - (score / 100 - 1/2) * (3/10))
          | none => v
        | none => v
      else if pace_scenario = "slow" then
        match analysis.pace_adaptability with
        | some pd =>
          match pd.slow_pace_score with
          | some score => v * (1 - (score / 100 - 1/2) * (3/10))
          | none => v
        | none => v
      else v
    match analysis.track_bias_impact with
    | some tb =>
      match tb.bias_advantage with
      | some adv =>
        if adv = "advantage" then v * (9/10)
        else if adv = "disadvantage" then v * (11/10)
        else v
      | none => v
    | none => v

/-- Python's `"-".join(sorted(keys))` (lexicographic, stable). -/
def joinSortedDash (l : List String) : String :=
  String.intercalate "-" (l.mergeSort (fun a b => decide (a ≤ b)))

/-- One iteration of `_run_monte_carlo_simulation`
(src/probability_models.py:295-344): `draw u` is the value
`random.expovariate` returned for horse `u` this iteration (the randomness
oracle); horses are sorted ascending by adjusted value and the four
combination counters are bumped only when at least three horses raced. -/
def simIteration (rd : RaceData) (fa : List (String × HorseAnalysis))
    (wp : List (String × ℚ)) (draw : String → ℚ) (t : SimTally) : SimTally :=
  let horse_values := wp.map (fun p =>
    (p.1, adjustRandomValue rd fa p.1 (draw p.1)))
  let sorted_horses := horse_values.mergeSort (fun a b => decide (a.2 ≤ b.2))
  match sorted_horses with
  | h1 :: h2 :: h3 :: _ =>
    let first := h1.1
    let second := h2.1
    let third := h3.1
    { t with
        exacta_counts := bump t.exacta_counts (first ++ "-" ++ second)
        quinella_counts :=
          bump t.quinella_counts (joinSortedDash [first, second])
        trifecta_counts :=
          bump t.trifecta_counts (first ++ "-" ++ second ++ "-" ++ third)
        trio_counts :=
          bump t.trio_counts (joinSortedDash [first, second, third]) }
  | _ => t

/-- `ProbabilityModels._run_monte_carlo_simulation`
(src/probability_models.py:279-356): iterate, then record the iteration
count used for normalization. -/
def run_monte_carlo_simulation (rd : RaceData)
    (fa : List (String × HorseAnalysis)) (wp : List (String × ℚ))
    (draw : ℕ → String → ℚ) (num_simulations : ℕ) : SimTally :=
  (List.range num_simulations).foldl
    (fun t i => simIteration rd fa wp (draw i) t)
    { exacta_counts := [], quinella_counts := [], trifecta_counts := [],
      trio_counts := [], num_simulations := num_simulations }

/-- `ProbabilityModels.estimate_exacta_probabilities`
(src/probability_models.py:358-372): `count / num_simulations` per observed
combination. -/
def estimate_exacta_probabilities (t : SimTally) : List (String × ℚ) :=
  t.exacta_counts.map (fun p => (p.1, (p.2 : ℚ) / (t.num_simulations : ℚ)))

/-- `estimate_quinella_probabilities` (src/probability_models.py:374-388). -/
def estimate_quinella_probabilities (t : SimTally) : List (String × ℚ) :=
  t.quinella_counts.map (fun p => (p.1, (p.2 : ℚ) / (t.num_simulations : ℚ)))

/-- `estimate_trifecta_probabilities` (src/probability_models.py:390-404). -/
def estimate_trifecta_probabilities (t : SimTally) : List (String × ℚ) :=
  t.trifecta_counts.map (fun p => (p.1, (p.2 : ℚ) / (t.num_simulations : ℚ)))

/-- `estimate_trio_probabilities` (src/probability_models.py:406-420). -/
def estimate_trio_probabilities (t : SimTally) : List (String × ℚ) :=
  t.trio_counts.map (fun p => (p.1, (p.2 : ℚ) / (t.num_simulations : ℚ)))

/-! ### C10: fewer than three horses tally nothing -/

/-- With fewer than three horses in the win-probability mapping, an
iteration leaves the tally untouched, whatever the random draws. -/
theorem simIteration_id (rd : RaceData) (fa : List (String × HorseAnalysis))
    (wp : List (String × ℚ)) (draw : String → ℚ) (t : SimTally)
    (h : wp.length < 3) : simIteration rd fa wp draw t = t := by
  simp only [simIteration]
  have hlen : ((wp.map (fun p =>
      (p.1, adjustRandomValue rd fa p.1 (draw p.1)))).mergeSort
        (fun a b => decide (a.2 ≤ b.2))).length < 3 := by
    rw [List.length_mergeSort, List.length_map]
    exact h
  cases hs : (wp.map (fun p =>
      (p.1, adjustRandomValue rd fa p.1 (draw p.1)))).mergeSort
        (fun a b => decide (a.2 ≤ b.2)) with
  | nil => rfl
  | cons h1 l1 =>
    cases l1 with
    | nil => rfl
    | cons h2 l2 =>
      cases l2 with
      | nil => rfl
      | cons h3 l3 =>
        rw [hs] at hlen
        simp at hlen
        omega

/-- C10: whenever the win-probability mapping has fewer than 3 horses
(including exactly 2), no combination is tallied in any Monte-Carlo
iteration, so the exacta, quinella, trifecta and trio counts — and the
probability distributions derived from them — are all empty, whatever the
random draws and iteration count. -/
theorem monte_carlo_empty_below_three (rd : RaceData)
    (fa : List (String × HorseAnalysis)) (wp : List (String × ℚ))
    (draw : ℕ → String → ℚ) (num_simulations : ℕ)
    (h : wp.length < 3) :
    (run_monte_carlo_simulation rd fa wp draw num_simulations).exacta_counts
        = [] ∧
    (run_monte_carlo_simulation rd fa wp draw num_simulations).quinella_counts
        = [] ∧
    (run_monte_carlo_simulation rd fa wp draw num_simulations).trifecta_counts
        = [] ∧
    (run_monte_carlo_simulation rd fa wp draw num_simulations).trio_counts
        = [] ∧
    estimate_exacta_probabilities
        (run_monte_carlo_simulation rd fa wp draw num_simulations) = [] ∧
    estimate_quinella_probabilities
        (run_monte_carlo_simulation rd fa wp draw num_simulations) = [] ∧
    estimate_trifecta_probabilities
        (run_monte_carlo_simulation rd fa wp draw num_simulations) = [] ∧
    estimate_trio_probabilities
        (run_monte_carlo_simulation rd fa wp draw num_simulations) = [] := by
  have hrun : run_monte_carlo_simulation rd fa wp draw num_simulations =
      { exacta_counts := [], quinella_counts := [], trifecta_counts := [],
        trio_counts := [], num_simulations := num_simulations } := by
    unfold run_monte_carlo_simulation
    generalize List.range num_simulations = l
    induction l with
    | nil => rfl
    | cons i rest ih =>
      rw [List.foldl_cons, simIteration_id rd fa wp (draw i) _ h]
      exact ih
  rw [hrun]
  refine ⟨rfl, rfl, rfl, rfl, rfl, rfl, rfl, rfl⟩

/-- Witness for C10 with two horses and a constant randomness oracle. -/
theorem monte_carlo_empty_below_three_witness :
    estimate_exacta_probabilities
      (run_monte_carlo_simulation {} [] [("1", 1/2), ("2", 1/2)]
        (fun _ _ => 1) 10) = [] ∧
    estimate_quinella_probabilities
      (run_monte_carlo_simulation {} [] [("1", 1/2), ("2", 1/2)]
        (fun _ _ => 1) 10) = [] := by
  have h := monte_carlo_empty_below_three {} [] [("1", 1/2), ("2", 1/2)]
    (fun _ _ => 1) 10 (by norm_num)
  exact ⟨h.2.2.2.2.1, h.2.2.2.2.2.1⟩

end Keiba
